import Mathlib

/-
  Shallow embedding of the minsubak/cpu_scheduler repository:
  the three scheduling engines FCFS (src/include/FCFS.h), SJF
  (src/include/SJF.h) and RR (src/include/RR.h) over the Process record
  of src/include/process.h.

  The repository's queue.h and compare.h are not present in the source
  tree; the queue operations and the by-arrival comparator are modelled
  from the spec (section 4.1: push, popFront and peekFront, the latter
  two failing with EmptyQueue on an empty queue; reorder is a stable
  sort).  Everything else is translated directly from the C sources.
-/

namespace CpuScheduler

/-- The Process structure of src/include/process.h.  The C fields are
ints; they are embedded as Int (the simulated quantities stay far from
machine-int bounds, so overflow is not modelled).  SJF.h additionally
assigns fields turnaround and response on the record it stores, so the
embedding carries those two fields as well (they stay 0 elsewhere). -/
structure Process where
  processID : Int
  arrival : Int
  burst : Int
  remain : Int
  prioity : Int
  waiting : Int
  timeout : Int
  execute : Int
  turnaround : Int
  response : Int
  deriving DecidableEq, Repr

/-- Modelled from the spec: the error kind EmptyQueue of section 7
(popFront or peekFront applied to an empty queue, fatal), plus the
undefined behaviour of RR.h line 103, which dereferences the running
pointer without a null check (nullDeref; unreachable in practice). -/
inductive QErr where
  | emptyQueue : QErr
  | nullDeref : QErr
  deriving DecidableEq, Repr

/-- Modelled from the spec: the OrderedQueue of section 4.1 holding
Process records by value, as a list with its front at the head. -/
abbrev Queue := List Process

/-- Modelled from the spec: isEmpty of the OrderedQueue (the C code's
is_empty_q from the missing queue.h). -/
def is_empty_q (q : Queue) : Bool := q.isEmpty

/-- Modelled from the spec: peekFront, failing with EmptyQueue when the
queue is empty (the C code's peek and check from the missing queue.h). -/
def peek (q : Queue) : Except QErr Process :=
  match q with
  | [] => .error .emptyQueue
  | r :: _ => .ok r

/-- Modelled from the spec: popFront, failing with EmptyQueue when the
queue is empty (the C code's dequeue and dispatch from the missing
queue.h), returning the removed record and the remaining queue. -/
def dequeue (q : Queue) : Except QErr (Process × Queue) :=
  match q with
  | [] => .error .emptyQueue
  | r :: rest => .ok (r, rest)

/-- Modelled from the spec: push to the back of the queue (the C code's
enqueue, and SJF.h's alias named after the timeout field, from the
missing queue.h). -/
def enqueue (q : Queue) (r : Process) : Queue := q ++ [r]

/-- The comparator compare_for_SJF of src/include/SJF.h lines 136-144:
(A->burst > B->burst) - (A->burst < B->burst). -/
def compare_for_SJF (A B : Process) : Int :=
  (if A.burst > B.burst then 1 else 0) - (if A.burst < B.burst then 1 else 0)

/-- The weak order induced by compare_for_SJF: A sorts no later than B
when the comparator is nonpositive. -/
def sjfLE (A B : Process) : Prop := compare_for_SJF A B ≤ 0

instance : DecidableRel sjfLE := fun A B => by
  unfold sjfLE; infer_instance

/-- Ordering by remaining time, used to compare compare_for_SJF (which
reads burst) against the spec's by-remaining-burst ordering. -/
def remainLE (A B : Process) : Prop := A.remain ≤ B.remain

instance : DecidableRel remainLE := fun A B => by
  unfold remainLE; infer_instance

/-- Modelled from the spec: the by-arrival-ascending comparator
compare_for_arrival declared in the missing compare.h (section 4.1). -/
def arrivalLE (A B : Process) : Prop := A.arrival ≤ B.arrival

instance : DecidableRel arrivalLE := fun A B => by
  unfold arrivalLE; infer_instance

/-- Modelled from the spec: reorder of section 4.1, a stable in-place
sort of the queue by the given comparison policy (the C code's sort from
the missing queue.h; a stable insertion sort realises the required
stability: ties preserve relative insertion order). -/
def sortQ (r : Process → Process → Prop) [DecidableRel r] (q : Queue) : Queue :=
  List.insertionSort r q

/-- Modelled from the spec: creation of a ProcessRecord from a caller
supplied definition (section 3 lifecycle: remainingTime starts equal to
burstTime, all other mutable state reset; the repository's main.c, which
builds the input array, is not in the source tree). -/
def mkProcess (id arrival burst prioity : Int) : Process :=
  { processID := id, arrival := arrival, burst := burst, remain := burst,
    prioity := prioity, waiting := 0, timeout := 0, execute := 0,
    turnaround := 0, response := 0 }

/-- Validity of the engine input per the spec (sections 6 and 7): at
least one process, the count within the supplied list, and every record
a freshly created one with positive burst and nonnegative arrival. -/
def ValidInput (p : List Process) (n : Nat) : Prop :=
  1 ≤ n ∧ n ≤ p.length ∧
  ∀ r ∈ p.take n, 0 < r.burst ∧ 0 ≤ r.arrival ∧ r.remain = r.burst ∧
    r.waiting = 0 ∧ r.timeout = 0 ∧ r.execute = 0 ∧ r.turnaround = 0 ∧
    r.response = 0

instance (p : List Process) (n : Nat) : Decidable (ValidInput p n) := by
  unfold ValidInput; infer_instance

/-- The local state of one engine run: the pending queue pre, the ready
queue, the running slot temp, the result storage, the clock time, the
terminate counter and the three running totals, as declared at the top
of each engine function.  caller models the caller's array p, which the
engines read but never write (threaded through the run to witness the
absence of mutation).  gantt models RR.h's gantt trace buffer, and
dispatchLog is a ghost trace of (processID, recorded waiting) at each
RR dispatch, used only to state properties about multiple dispatches. -/
structure RunState where
  pre : Queue
  ready : Queue
  temp : Option Process
  result : List Process
  time : Int
  terminate : Nat
  total_turnaround : Int
  total_waiting : Int
  total_response : Int
  caller : List Process
  gantt : List Process := []
  dispatchLog : List (Int × Int) := []
  deriving DecidableEq, Repr

instance {ε α : Type} [DecidableEq ε] [DecidableEq α] : DecidableEq (Except ε α) :=
  fun x y =>
    match x, y with
    | .error a, .error b =>
      if h : a = b then isTrue (by rw [h]) else isFalse (fun hc => h (by cases hc; rfl))
    | .ok a, .ok b =>
      if h : a = b then isTrue (by rw [h]) else isFalse (fun hc => h (by cases hc; rfl))
    | .error _, .ok _ => isFalse (fun hc => by cases hc)
    | .ok _, .error _ => isFalse (fun hc => by cases hc)

/-- Advance the scheduler clock by one unit (the statement time++ of
each engine loop). -/
def tick (st : RunState) : RunState := { st with time := st.time + 1 }

/-- The admission step shared by FCFS.h lines 81-87 and RR.h lines
84-90: if the pending queue is nonempty and its front record's arrival
equals the current time, move that one record to the back of the ready
queue.  Note the C code uses an if, not a while: at most one record is
admitted per tick. -/
def arriveStep (st : RunState) : Except QErr RunState :=
  if is_empty_q st.pre then .ok st
  else
    match peek st.pre with
    | .error e => .error e
    | .ok front =>
      if front.arrival == st.time then
        match dequeue st.pre with
        | .error e => .error e
        | .ok (r, rest) => .ok { st with pre := rest, ready := enqueue st.ready r }
      else .ok st

/-- The FCFS dispatch step, FCFS.h lines 89-97: peek(&ready) is applied
unconditionally (before the temp == NULL test, per C evaluation order),
so an empty ready queue fails with EmptyQueue here; otherwise, when the
front has arrived and the CPU slot is free, the front is dequeued, its
waiting set to time - arrival, the waiting total increased, and its
execute counter reset. -/
def dispatchFCFS (st : RunState) : Except QErr RunState :=
  match peek st.ready with
  | .error e => .error e
  | .ok front =>
    if front.arrival ≤ st.time ∧ st.temp = none then
      match dequeue st.ready with
      | .error e => .error e
      | .ok (r, rest) =>
        .ok { st with ready := rest,
                      temp := some { r with waiting := st.time - r.arrival, execute := 0 },
                      total_waiting := st.total_waiting + (st.time - r.arrival) }
    else .ok st

/-- The FCFS/RR progress step, FCFS.h lines 101-116 and RR.h lines
120-134: if a record is running, decrement remain and increment
execute; if remain reaches 0, add execute + waiting to the turnaround
total and waiting to the response total, append the record to the
result storage, free the CPU slot and count the termination. -/
def progressStep (st : RunState) : RunState :=
  match st.temp with
  | none => st
  | some r =>
    let r := { r with remain := r.remain - 1, execute := r.execute + 1 }
    if r.remain == 0 then
      { st with temp := none,
                total_turnaround := st.total_turnaround + r.execute + r.waiting,
                total_response := st.total_response + r.waiting,
                result := st.result ++ [r],
                terminate := st.terminate + 1 }
    else { st with temp := some r }

/-- One iteration of the FCFS while loop, FCFS.h lines 78-117:
admission, dispatch, clock advance, task progress. -/
def stepFCFS (st : RunState) : Except QErr RunState :=
  match arriveStep st with
  | .error e => .error e
  | .ok st1 =>
    match dispatchFCFS st1 with
    | .error e => .error e
    | .ok st2 => .ok (progressStep (tick st2))

/-- The while loop shared verbatim by the three engines (while
terminate < n, one step per iteration), bounded by fuel (the
embedding's induction handle; a completed run is one whose final state
has terminate = n). -/
def stepsLoop (step : RunState → Except QErr RunState) :
    Nat → Nat → RunState → Except QErr RunState
  | 0, _, st => .ok st
  | fuel + 1, n, st =>
    if st.terminate < n then
      match step st with
      | .error e => .error e
      | .ok st' => stepsLoop step fuel n st'
    else .ok st

/-- The FCFS while loop, FCFS.h line 78. -/
def stepsFCFS (fuel n : Nat) (st : RunState) : Except QErr RunState :=
  stepsLoop stepFCFS fuel n st

/-- The initial state of FCFS.h lines 52-76: totals zero, queues
initialised, the first n records of p enqueued into the pending queue
and sorted by arrival (stable, per the spec's section 4.1). -/
def initFCFS (p : List Process) (n : Nat) : RunState :=
  { pre := sortQ arrivalLE (p.take n), ready := [], temp := none,
    result := [], time := 0, terminate := 0, total_turnaround := 0,
    total_waiting := 0, total_response := 0, caller := p }

/-- The FCFS engine, FCFS.h lines 52-129 (printing omitted): run the
loop from the initial state. -/
def FCFS (p : List Process) (n : Nat) (fuel : Nat) : Except QErr RunState :=
  stepsFCFS fuel n (initFCFS p n)

/-- The SJF admission step, SJF.h lines 87-92: like arriveStep, but
after the one admitted record is pushed, the ready queue is re-sorted
with compare_for_SJF (stable, per the spec's section 4.1). -/
def arriveSJFStep (st : RunState) : Except QErr RunState :=
  if is_empty_q st.pre then .ok st
  else
    match peek st.pre with
    | .error e => .error e
    | .ok front =>
      if front.arrival == st.time then
        match dequeue st.pre with
        | .error e => .error e
        | .ok (r, rest) =>
          .ok { st with pre := rest, ready := sortQ sjfLE (enqueue st.ready r) }
      else .ok st

/-- The SJF dispatch step, SJF.h lines 94-101: unlike FCFS.h, the ready
queue accesses are guarded by is_empty_q; when the front has arrived
and the CPU slot is free, it is dequeued and its waiting set to
time_flow - arrival (SJF.h does not reset an execute counter). -/
def dispatchSJF (st : RunState) : Except QErr RunState :=
  if is_empty_q st.ready then .ok st
  else
    match peek st.ready with
    | .error e => .error e
    | .ok front =>
      if front.arrival ≤ st.time ∧ st.temp = none then
        match dequeue st.ready with
        | .error e => .error e
        | .ok (r, rest) =>
          .ok { st with ready := rest,
                        temp := some { r with waiting := st.time - r.arrival },
                        total_waiting := st.total_waiting + (st.time - r.arrival) }
      else .ok st

/-- The SJF progress step, SJF.h lines 105-118: decrement remain; on
reaching 0, store turnaround = burst + waiting and response = waiting
on the record, add them to the totals, append the record to result_sjf
and free the CPU slot. -/
def progressSJF (st : RunState) : RunState :=
  match st.temp with
  | none => st
  | some r =>
    let r := { r with remain := r.remain - 1 }
    if r.remain == 0 then
      let r := { r with turnaround := r.burst + r.waiting, response := r.waiting }
      { st with temp := none,
                total_turnaround := st.total_turnaround + r.turnaround,
                total_response := st.total_response + r.response,
                result := st.result ++ [r],
                terminate := st.terminate + 1 }
    else { st with temp := some r }

/-- One iteration of the SJF while loop, SJF.h lines 85-119. -/
def stepSJF (st : RunState) : Except QErr RunState :=
  match arriveSJFStep st with
  | .error e => .error e
  | .ok st1 =>
    match dispatchSJF st1 with
    | .error e => .error e
    | .ok st2 => .ok (progressSJF (tick st2))

/-- The SJF while loop, SJF.h line 85, bounded by fuel. -/
def stepsSJF (fuel n : Nat) (st : RunState) : Except QErr RunState :=
  stepsLoop stepSJF fuel n st

/-- The initial state of SJF.h lines 64-84: the first n records of p
are pushed into the pending queue in order.  SJF.h never sorts pre by
arrival (it relies on the caller's order); the totals are doubles in
the C source, embedded as Int since they only ever accumulate integer
values (exactly representable, no rounding occurs). -/
def initSJF (p : List Process) (n : Nat) : RunState :=
  { pre := p.take n, ready := [], temp := none,
    result := [], time := 0, terminate := 0, total_turnaround := 0,
    total_waiting := 0, total_response := 0, caller := p }

/-- The SJF engine, SJF.h lines 64-134 (printing omitted). -/
def SJF (p : List Process) (n : Nat) (fuel : Nat) : Except QErr RunState :=
  stepsSJF fuel n (initSJF p n)

/-- The RR dispatch step, RR.h lines 92-100: identical in shape to the
FCFS one (peek(&ready) unguarded), except that the recorded waiting is
time - timeout, assigned over the record's waiting field, with the
increment also added to total_waiting.  The ghost dispatchLog records
(processID, recorded waiting) for each dispatch. -/
def dispatchRR (st : RunState) : Except QErr RunState :=
  match peek st.ready with
  | .error e => .error e
  | .ok front =>
    if front.arrival ≤ st.time ∧ st.temp = none then
      match dequeue st.ready with
      | .error e => .error e
      | .ok (r, rest) =>
        .ok { st with ready := rest,
                      temp := some { r with waiting := st.time - r.timeout, execute := 0 },
                      total_waiting := st.total_waiting + (st.time - r.timeout),
                      dispatchLog := st.dispatchLog ++ [(r.processID, st.time - r.timeout)] }
    else .ok st

/-- The RR timeout step, RR.h lines 102-116: the running record's
execute counter is compared against the parameter t (the caller's total
burst time), not against the quantum q; on equality the record's
timeout field is set to the current time, execute + waiting is added to
the turnaround total and waiting to the response total, the record is
pushed to the back of the ready queue, and the new front is dequeued
and dispatched at once (waiting assigned time - timeout, execute reset;
the CPU slot never becomes idle here).  The C code dereferences temp
without a null check, modelled as nullDeref. -/
def timeoutRR (t : Int) (st : RunState) : Except QErr RunState :=
  match st.temp with
  | none => .error .nullDeref
  | some r =>
    if r.execute == t then
      match dequeue (enqueue st.ready { r with timeout := st.time }) with
      | .error e => .error e
      | .ok (r2, rest) =>
        .ok { st with ready := rest,
                      temp := some { r2 with waiting := st.time - r2.timeout, execute := 0 },
                      total_turnaround := st.total_turnaround + r.execute + r.waiting,
                      total_response := st.total_response + r.waiting,
                      total_waiting := st.total_waiting + (st.time - r2.timeout),
                      dispatchLog := st.dispatchLog ++ [(r2.processID, st.time - r2.timeout)] }
    else .ok st

/-- The RR gantt write, RR.h line 118: gantt[time++] = *temp, again
dereferencing temp without a null check; the buffer is modelled as a
growing list, and the clock advances here. -/
def ganttTick (st : RunState) : Except QErr RunState :=
  match st.temp with
  | none => .error .nullDeref
  | some r => .ok { tick st with gantt := st.gantt ++ [r] }

/-- One iteration of the RR while loop, RR.h lines 81-135: admission,
dispatch, the timeout check against t, the gantt write with the clock
advance, and task progress (identical to the FCFS progress except that
the result index is the terminate counter itself). -/
def stepRR (t : Int) (st : RunState) : Except QErr RunState :=
  match arriveStep st with
  | .error e => .error e
  | .ok st1 =>
    match dispatchRR st1 with
    | .error e => .error e
    | .ok st2 =>
      match timeoutRR t st2 with
      | .error e => .error e
      | .ok st3 =>
        match ganttTick st3 with
        | .error e => .error e
        | .ok st4 => .ok (progressStep st4)

/-- The RR while loop, RR.h line 81, bounded by fuel. -/
def stepsRR (t : Int) (fuel n : Nat) (st : RunState) : Except QErr RunState :=
  stepsLoop (stepRR t) fuel n st

/-- The initial state of RR.h lines 54-78: totals zero, the first n
records of p enqueued into the pending queue and sorted by arrival. -/
def initRR (p : List Process) (n : Nat) : RunState :=
  { pre := sortQ arrivalLE (p.take n), ready := [], temp := none,
    result := [], time := 0, terminate := 0, total_turnaround := 0,
    total_waiting := 0, total_response := 0, caller := p }

/-- The RR engine, RR.h lines 54-165 (printing omitted).  The q
parameter is the caller's time quantum; the function body never reads
it (the timeout check uses t instead). -/
def RR (p : List Process) (n : Nat) (t q : Int) (fuel : Nat) : Except QErr RunState :=
  stepsRR t fuel n (initRR p n)

/-- Sum of the waiting fields over a list of finished records. -/
def sumWaiting (l : List Process) : Int := (l.map Process.waiting).sum

/-- Sum of the burst fields over a list of finished records. -/
def sumBurst (l : List Process) : Int := (l.map Process.burst).sum

/-- Sum of the per-process turnaround values of FCFS.h and RR.h over a
list of finished records: both print execute + waiting as turnaround
(process.h line 78 and RR.h line 157). -/
def sumTurnFR (l : List Process) : Int := (l.map (fun r => r.execute + r.waiting)).sum

/-- Sum of the turnaround fields stored by SJF.h line 111 over a list
of finished records. -/
def sumTurnS (l : List Process) : Int := (l.map Process.turnaround).sum

/-- The FCFS run invariant: records in the pending and ready queues
have not executed yet (remain = burst), the running record satisfies
execute + remain = burst, and every collected record has fully
executed (execute = burst). -/
def InvF (st : RunState) : Prop :=
  (∀ r ∈ st.pre, r.remain = r.burst) ∧
  (∀ r ∈ st.ready, r.remain = r.burst) ∧
  (∀ r, st.temp = some r → r.execute + r.remain = r.burst) ∧
  (∀ r ∈ st.result, r.execute = r.burst)

/-- The SJF run invariant: records in the pending and ready queues have
not executed yet, the ready queue is sorted by compare_for_SJF, and
every collected record carries turnaround = burst + waiting. -/
def InvS (st : RunState) : Prop :=
  (∀ r ∈ st.pre, r.remain = r.burst) ∧
  (∀ r ∈ st.ready, r.remain = r.burst) ∧
  List.Sorted sjfLE st.ready ∧
  (∀ r ∈ st.result, r.turnaround = r.burst + r.waiting)

/-- A one-process input used to instantiate theorems with hypotheses at
a concrete, fully evaluated run. -/
def pOne : List Process := [mkProcess 0 0 1 0]

/-- The final state of the FCFS run on pOne (one process, burst 1):
it completes after one tick. -/
def wFCFS : RunState :=
  { pre := [], ready := [], temp := none,
    result := [{ mkProcess 0 0 1 0 with remain := 0, execute := 1 }],
    time := 1, terminate := 1, total_turnaround := 1,
    total_waiting := 0, total_response := 0, caller := pOne }

/-- The final state of the SJF run on pOne. -/
def wSJF : RunState :=
  { pre := [], ready := [], temp := none,
    result := [{ mkProcess 0 0 1 0 with remain := 0, turnaround := 1 }],
    time := 1, terminate := 1, total_turnaround := 1,
    total_waiting := 0, total_response := 0, caller := pOne }

/-- The final state of the RR run on pOne with t = 5 (and any q). -/
def wRR : RunState :=
  { pre := [], ready := [], temp := none,
    result := [{ mkProcess 0 0 1 0 with remain := 0, execute := 1 }],
    time := 1, terminate := 1, total_turnaround := 1,
    total_waiting := 0, total_response := 0, caller := pOne,
    gantt := [mkProcess 0 0 1 0], dispatchLog := [(0, 0)] }

/-- The SJF state reached from a two-process input after the tick-0
admission phase: process 0 admitted into the ready queue, process 1
still pending, CPU idle.  Used to instantiate a dispatch-decision
theorem at a concrete state. -/
def staW : RunState :=
  { pre := [mkProcess 1 1 1 0], ready := [mkProcess 0 0 2 0], temp := none,
    result := [], time := 0, terminate := 0, total_turnaround := 0,
    total_waiting := 0, total_response := 0,
    caller := [mkProcess 0 0 2 0, mkProcess 1 1 1 0] }

/-- A mid-run RR state whose ready front carries a nonzero waiting
field (9) from an earlier sojourn, used to instantiate the dispatch
theorem: the dispatch overwrites that field. -/
def stW : RunState :=
  { pre := [], ready := [{ mkProcess 7 0 5 0 with waiting := 9, timeout := 3 }],
    temp := none, result := [], time := 10, terminate := 0,
    total_turnaround := 0, total_waiting := 0, total_response := 0, caller := [] }

/-! Helper lemmas -/

theorem sjfLE_iff (A B : Process) : sjfLE A B ↔ A.burst ≤ B.burst := by
  unfold sjfLE compare_for_SJF
  split_ifs with h1 h2 h2 <;> omega

instance : IsTotal Process sjfLE :=
  ⟨fun a b => by simp only [sjfLE_iff]; omega⟩

instance : IsTrans Process sjfLE :=
  ⟨fun a b c hab hbc => by
    rw [sjfLE_iff] at hab hbc ⊢; omega⟩

theorem mem_enqueue {q : Queue} {x r : Process} :
    r ∈ enqueue q x ↔ r ∈ q ∨ r = x := by
  simp [enqueue]

theorem arriveStep_cases {st st' : RunState} (h : arriveStep st = .ok st') :
    st' = st ∨ ∃ r rest, st.pre = r :: rest ∧ r.arrival = st.time ∧
      st' = { st with pre := rest, ready := enqueue st.ready r } := by
  unfold arriveStep at h
  cases hp : st.pre with
  | nil =>
    rw [hp] at h
    simp only [is_empty_q, List.isEmpty_nil, if_true] at h
    exact Or.inl (by cases h; rfl)
  | cons r rest =>
    rw [hp] at h
    simp only [is_empty_q, List.isEmpty_cons, Bool.false_eq_true, if_false, peek, dequeue] at h
    split at h
    · right
      refine ⟨r, rest, rfl, by simpa using (by assumption : (r.arrival == st.time) = true), ?_⟩
      cases h; rfl
    · exact Or.inl (by cases h; rfl)

theorem arriveSJFStep_cases {st st' : RunState} (h : arriveSJFStep st = .ok st') :
    st' = st ∨ ∃ r rest, st.pre = r :: rest ∧ r.arrival = st.time ∧
      st' = { st with pre := rest, ready := sortQ sjfLE (enqueue st.ready r) } := by
  unfold arriveSJFStep at h
  cases hp : st.pre with
  | nil =>
    rw [hp] at h
    simp only [is_empty_q, List.isEmpty_nil, if_true] at h
    exact Or.inl (by cases h; rfl)
  | cons r rest =>
    rw [hp] at h
    simp only [is_empty_q, List.isEmpty_cons, Bool.false_eq_true, if_false, peek, dequeue] at h
    split at h
    · right
      refine ⟨r, rest, rfl, by simpa using (by assumption : (r.arrival == st.time) = true), ?_⟩
      cases h; rfl
    · exact Or.inl (by cases h; rfl)

theorem dispatchFCFS_cases {st st' : RunState} (h : dispatchFCFS st = .ok st') :
    st' = st ∨ ∃ r rest, st.ready = r :: rest ∧ r.arrival ≤ st.time ∧ st.temp = none ∧
      st' = { st with ready := rest,
                      temp := some { r with waiting := st.time - r.arrival, execute := 0 },
                      total_waiting := st.total_waiting + (st.time - r.arrival) } := by
  unfold dispatchFCFS at h
  cases hp : st.ready with
  | nil => rw [hp] at h; simp [peek] at h
  | cons r rest =>
    rw [hp] at h
    simp only [peek, dequeue] at h
    split at h
    · right
      have hc : r.arrival ≤ st.time ∧ st.temp = none := by assumption
      exact ⟨r, rest, rfl, hc.1, hc.2, by cases h; rfl⟩
    · exact Or.inl (by cases h; rfl)

theorem dispatchSJF_cases {st st' : RunState} (h : dispatchSJF st = .ok st') :
    st' = st ∨ ∃ r rest, st.ready = r :: rest ∧ r.arrival ≤ st.time ∧ st.temp = none ∧
      st' = { st with ready := rest,
                      temp := some { r with waiting := st.time - r.arrival },
                      total_waiting := st.total_waiting + (st.time - r.arrival) } := by
  unfold dispatchSJF at h
  cases hp : st.ready with
  | nil =>
    rw [hp] at h
    simp only [is_empty_q, List.isEmpty_nil, if_true] at h
    exact Or.inl (by cases h; rfl)
  | cons r rest =>
    rw [hp] at h
    simp only [is_empty_q, List.isEmpty_cons, Bool.false_eq_true, if_false, peek, dequeue] at h
    split at h
    · right
      have hc : r.arrival ≤ st.time ∧ st.temp = none := by assumption
      exact ⟨r, rest, rfl, hc.1, hc.2, by cases h; rfl⟩
    · exact Or.inl (by cases h; rfl)

theorem dispatchRR_cases {st st' : RunState} (h : dispatchRR st = .ok st') :
    st' = st ∨ ∃ r rest, st.ready = r :: rest ∧ r.arrival ≤ st.time ∧ st.temp = none ∧
      st' = { st with ready := rest,
                      temp := some { r with waiting := st.time - r.timeout, execute := 0 },
                      total_waiting := st.total_waiting + (st.time - r.timeout),
                      dispatchLog := st.dispatchLog ++ [(r.processID, st.time - r.timeout)] } := by
  unfold dispatchRR at h
  cases hp : st.ready with
  | nil => rw [hp] at h; simp [peek] at h
  | cons r rest =>
    rw [hp] at h
    simp only [peek, dequeue] at h
    split at h
    · right
      have hc : r.arrival ≤ st.time ∧ st.temp = none := by assumption
      exact ⟨r, rest, rfl, hc.1, hc.2, by cases h; rfl⟩
    · exact Or.inl (by cases h; rfl)

theorem stepsLoop_pres {step : RunState → Except QErr RunState} {P : RunState → Prop}
    (hstep : ∀ s s', step s = .ok s' → P s → P s') :
    ∀ (fuel n : Nat) (s s' : RunState),
      stepsLoop step fuel n s = .ok s' → P s → P s' := by
  intro fuel
  induction fuel with
  | zero =>
    intro n s s' h hP
    cases h; exact hP
  | succ f ih =>
    intro n s s' h hP
    unfold stepsLoop at h
    split at h
    · cases hs : step s with
      | error e => rw [hs] at h; cases h
      | ok s1 => rw [hs] at h; exact ih n s1 s' h (hstep s s1 hs hP)
    · cases h; exact hP

theorem stepsLoop_total {step : RunState → Except QErr RunState}
    (hstep : ∀ s, ∃ s', step s = .ok s') :
    ∀ (fuel n : Nat) (s : RunState), ∃ s', stepsLoop step fuel n s = .ok s' := by
  intro fuel
  induction fuel with
  | zero => intro n s; exact ⟨s, rfl⟩
  | succ f ih =>
    intro n s
    unfold stepsLoop
    split
    · obtain ⟨s1, hs1⟩ := hstep s
      rw [hs1]
      exact ih n s1
    · exact ⟨s, rfl⟩

theorem tick_invF {st : RunState} (hI : InvF st) : InvF (tick st) := hI

theorem tick_invS {st : RunState} (hI : InvS st) : InvS (tick st) := hI

theorem arriveStep_invF {st st' : RunState} (h : arriveStep st = .ok st')
    (hI : InvF st) : InvF st' := by
  obtain ⟨h1, h2, h3, h4⟩ := hI
  rcases arriveStep_cases h with rfl | ⟨r, rest, hp, ht, rfl⟩
  · exact ⟨h1, h2, h3, h4⟩
  · refine ⟨?_, ?_, h3, h4⟩
    · intro x hx
      exact h1 x (by rw [hp]; exact List.mem_cons_of_mem _ hx)
    · intro x hx
      rcases mem_enqueue.mp hx with hx | rfl
      · exact h2 x hx
      · exact h1 x (by rw [hp]; exact List.mem_cons_self _ _)

theorem dispatchFCFS_invF {st st' : RunState} (h : dispatchFCFS st = .ok st')
    (hI : InvF st) : InvF st' := by
  obtain ⟨h1, h2, h3, h4⟩ := hI
  rcases dispatchFCFS_cases h with rfl | ⟨r, rest, hp, harr, htm, rfl⟩
  · exact ⟨h1, h2, h3, h4⟩
  · refine ⟨h1, ?_, ?_, h4⟩
    · intro x hx
      exact h2 x (by rw [hp]; exact List.mem_cons_of_mem _ hx)
    · intro x hx
      cases hx
      have := h2 r (by rw [hp]; exact List.mem_cons_self _ _)
      simp [this]

theorem progressStep_invF {st : RunState} (hI : InvF st) : InvF (progressStep st) := by
  obtain ⟨h1, h2, h3, h4⟩ := hI
  unfold progressStep
  cases ht : st.temp with
  | none => exact ⟨h1, h2, fun r hr => h3 r (ht ▸ hr), h4⟩
  | some r =>
    have hr := h3 r ht
    dsimp only
    split
    · next heq =>
      refine ⟨h1, h2, by simp, ?_⟩
      intro x hx
      rcases List.mem_append.mp hx with hx | hx
      · exact h4 x hx
      · have hx := List.mem_singleton.mp hx
        subst hx
        have : r.remain - 1 = 0 := by simpa using heq
        simp only []
        omega
    · next heq =>
      refine ⟨h1, h2, ?_, h4⟩
      intro x hx
      have hx := Option.some_inj.mp hx.symm
      subst hx
      simp only []
      omega

theorem stepFCFS_invF {st st' : RunState} (h : stepFCFS st = .ok st')
    (hI : InvF st) : InvF st' := by
  unfold stepFCFS at h
  cases ha : arriveStep st with
  | error e => rw [ha] at h; cases h
  | ok st1 =>
    simp only [ha] at h
    cases hd : dispatchFCFS st1 with
    | error e => simp only [hd] at h; cases h
    | ok st2 =>
      simp only [hd] at h
      cases h
      exact progressStep_invF (tick_invF (dispatchFCFS_invF hd (arriveStep_invF ha hI)))

theorem initFCFS_invF {p : List Process} {n : Nat} (h : ValidInput p n) :
    InvF (initFCFS p n) := by
  obtain ⟨-, -, hv⟩ := h
  refine ⟨?_, by simp [initFCFS], by simp [initFCFS], by simp [initFCFS]⟩
  intro r hr
  have hr : r ∈ p.take n := by simpa [initFCFS, sortQ] using hr
  exact (hv r hr).2.2.1

theorem FCFS_invF {p : List Process} {n : Nat} {fuel : Nat} {st : RunState}
    (h : ValidInput p n) (hrun : FCFS p n fuel = .ok st) : InvF st :=
  stepsLoop_pres (fun _ _ hs hI => stepFCFS_invF hs hI) fuel n _ st hrun (initFCFS_invF h)

theorem arriveSJFStep_invS {st st' : RunState} (h : arriveSJFStep st = .ok st')
    (hI : InvS st) : InvS st' := by
  obtain ⟨h1, h2, h3, h4⟩ := hI
  rcases arriveSJFStep_cases h with rfl | ⟨r, rest, hp, ht, rfl⟩
  · exact ⟨h1, h2, h3, h4⟩
  · refine ⟨?_, ?_, ?_, h4⟩
    · intro x hx
      exact h1 x (by rw [hp]; exact List.mem_cons_of_mem _ hx)
    · intro x hx
      have hx : x ∈ enqueue st.ready r := by simpa [sortQ] using hx
      rcases mem_enqueue.mp hx with hx | rfl
      · exact h2 x hx
      · exact h1 x (by rw [hp]; exact List.mem_cons_self _ _)
    · exact List.sorted_insertionSort sjfLE _

theorem dispatchSJF_invS {st st' : RunState} (h : dispatchSJF st = .ok st')
    (hI : InvS st) : InvS st' := by
  obtain ⟨h1, h2, h3, h4⟩ := hI
  rcases dispatchSJF_cases h with rfl | ⟨r, rest, hp, harr, htm, rfl⟩
  · exact ⟨h1, h2, h3, h4⟩
  · refine ⟨h1, ?_, ?_, h4⟩
    · intro x hx
      exact h2 x (by rw [hp]; exact List.mem_cons_of_mem _ hx)
    · rw [hp] at h3
      exact (List.sorted_cons.mp h3).2

theorem progressSJF_invS {st : RunState} (hI : InvS st) : InvS (progressSJF st) := by
  obtain ⟨h1, h2, h3, h4⟩ := hI
  unfold progressSJF
  cases ht : st.temp with
  | none => exact ⟨h1, h2, h3, h4⟩
  | some r =>
    dsimp only
    split
    · refine ⟨h1, h2, h3, ?_⟩
      intro x hx
      rcases List.mem_append.mp hx with hx | hx
      · exact h4 x hx
      · have hx := List.mem_singleton.mp hx
        subst hx
        rfl
    · exact ⟨h1, h2, h3, h4⟩

theorem stepSJF_invS {st st' : RunState} (h : stepSJF st = .ok st')
    (hI : InvS st) : InvS st' := by
  unfold stepSJF at h
  cases ha : arriveSJFStep st with
  | error e => rw [ha] at h; cases h
  | ok st1 =>
    simp only [ha] at h
    cases hd : dispatchSJF st1 with
    | error e => simp only [hd] at h; cases h
    | ok st2 =>
      simp only [hd] at h
      cases h
      exact progressSJF_invS (tick_invS (dispatchSJF_invS hd (arriveSJFStep_invS ha hI)))

theorem initSJF_invS {p : List Process} {n : Nat} (h : ValidInput p n) :
    InvS (initSJF p n) := by
  obtain ⟨-, -, hv⟩ := h
  refine ⟨?_, by simp [initSJF], by simp [initSJF], by simp [initSJF]⟩
  intro r hr
  exact (hv r hr).2.2.1

theorem SJF_invS {p : List Process} {n : Nat} {fuel : Nat} {st : RunState}
    (h : ValidInput p n) (hrun : SJF p n fuel = .ok st) : InvS st :=
  stepsLoop_pres (fun _ _ hs hI => stepSJF_invS hs hI) fuel n _ st hrun (initSJF_invS h)

theorem arriveSJFStep_total (st : RunState) : ∃ st', arriveSJFStep st = .ok st' := by
  unfold arriveSJFStep
  cases hp : st.pre with
  | nil => exact ⟨st, by simp [is_empty_q]⟩
  | cons r rest =>
    simp only [is_empty_q, List.isEmpty_cons, Bool.false_eq_true, if_false, peek, dequeue]
    split
    · exact ⟨_, rfl⟩
    · exact ⟨st, rfl⟩

theorem dispatchSJF_total (st : RunState) : ∃ st', dispatchSJF st = .ok st' := by
  unfold dispatchSJF
  cases hp : st.ready with
  | nil => exact ⟨st, by simp [is_empty_q]⟩
  | cons r rest =>
    simp only [is_empty_q, List.isEmpty_cons, Bool.false_eq_true, if_false, peek, dequeue]
    split
    · exact ⟨_, rfl⟩
    · exact ⟨st, rfl⟩

theorem stepSJF_total (st : RunState) : ∃ st', stepSJF st = .ok st' := by
  obtain ⟨st1, h1⟩ := arriveSJFStep_total st
  obtain ⟨st2, h2⟩ := dispatchSJF_total st1
  exact ⟨progressSJF (tick st2), by unfold stepSJF; rw [h1]; simp only [h2]⟩

theorem arriveStep_caller {st st' : RunState} (h : arriveStep st = .ok st') :
    st'.caller = st.caller := by
  rcases arriveStep_cases h with rfl | ⟨r, rest, hp, ht, rfl⟩ <;> rfl

theorem arriveSJFStep_caller {st st' : RunState} (h : arriveSJFStep st = .ok st') :
    st'.caller = st.caller := by
  rcases arriveSJFStep_cases h with rfl | ⟨r, rest, hp, ht, rfl⟩ <;> rfl

theorem dispatchFCFS_caller {st st' : RunState} (h : dispatchFCFS st = .ok st') :
    st'.caller = st.caller := by
  rcases dispatchFCFS_cases h with rfl | ⟨r, rest, hp, harr, htm, rfl⟩ <;> rfl

theorem dispatchSJF_caller {st st' : RunState} (h : dispatchSJF st = .ok st') :
    st'.caller = st.caller := by
  rcases dispatchSJF_cases h with rfl | ⟨r, rest, hp, harr, htm, rfl⟩ <;> rfl

theorem dispatchRR_caller {st st' : RunState} (h : dispatchRR st = .ok st') :
    st'.caller = st.caller := by
  rcases dispatchRR_cases h with rfl | ⟨r, rest, hp, harr, htm, rfl⟩ <;> rfl

theorem timeoutRR_caller {t : Int} {st st' : RunState} (h : timeoutRR t st = .ok st') :
    st'.caller = st.caller := by
  unfold timeoutRR at h
  cases htm : st.temp with
  | none => rw [htm] at h; cases h
  | some r =>
    simp only [htm] at h
    split at h
    · cases hq : dequeue (enqueue st.ready { r with timeout := st.time }) with
      | error e => rw [hq] at h; cases h
      | ok pr =>
        rw [hq] at h
        cases h
        rfl
    · cases h; rfl

theorem ganttTick_caller {st st' : RunState} (h : ganttTick st = .ok st') :
    st'.caller = st.caller := by
  unfold ganttTick at h
  cases htm : st.temp with
  | none => rw [htm] at h; cases h
  | some r => rw [htm] at h; cases h; rfl

theorem progressStep_caller (st : RunState) : (progressStep st).caller = st.caller := by
  unfold progressStep
  cases htm : st.temp with
  | none => rfl
  | some r => dsimp only; split <;> rfl

theorem progressSJF_caller (st : RunState) : (progressSJF st).caller = st.caller := by
  unfold progressSJF
  cases htm : st.temp with
  | none => rfl
  | some r => dsimp only; split <;> rfl

theorem stepFCFS_caller {st st' : RunState} (h : stepFCFS st = .ok st') :
    st'.caller = st.caller := by
  unfold stepFCFS at h
  cases ha : arriveStep st with
  | error e => rw [ha] at h; cases h
  | ok st1 =>
    simp only [ha] at h
    cases hd : dispatchFCFS st1 with
    | error e => simp only [hd] at h; cases h
    | ok st2 =>
      simp only [hd] at h
      cases h
      rw [progressStep_caller]
      exact (dispatchFCFS_caller hd).trans (arriveStep_caller ha)

theorem stepSJF_caller {st st' : RunState} (h : stepSJF st = .ok st') :
    st'.caller = st.caller := by
  unfold stepSJF at h
  cases ha : arriveSJFStep st with
  | error e => rw [ha] at h; cases h
  | ok st1 =>
    simp only [ha] at h
    cases hd : dispatchSJF st1 with
    | error e => simp only [hd] at h; cases h
    | ok st2 =>
      simp only [hd] at h
      cases h
      rw [progressSJF_caller]
      exact (dispatchSJF_caller hd).trans (arriveSJFStep_caller ha)

theorem stepRR_caller {t : Int} {st st' : RunState} (h : stepRR t st = .ok st') :
    st'.caller = st.caller := by
  unfold stepRR at h
  cases ha : arriveStep st with
  | error e => rw [ha] at h; cases h
  | ok st1 =>
    simp only [ha] at h
    cases hd : dispatchRR st1 with
    | error e => simp only [hd] at h; cases h
    | ok st2 =>
      simp only [hd] at h
      cases ht : timeoutRR t st2 with
      | error e => simp only [ht] at h; cases h
      | ok st3 =>
        simp only [ht] at h
        cases hg : ganttTick st3 with
        | error e => simp only [hg] at h; cases h
        | ok st4 =>
          simp only [hg] at h
          cases h
          rw [progressStep_caller]
          exact ((ganttTick_caller hg).trans ((timeoutRR_caller ht).trans
            ((dispatchRR_caller hd).trans (arriveStep_caller ha))))

theorem sumTurnFR_eq {l : List Process} (h : ∀ r ∈ l, r.execute = r.burst) :
    sumTurnFR l = sumWaiting l + sumBurst l := by
  induction l with
  | nil => rfl
  | cons a l ih =>
    have ha := h a (List.mem_cons_self _ _)
    have ihl := ih fun r hr => h r (List.mem_cons_of_mem _ hr)
    simp only [sumTurnFR, sumWaiting, sumBurst, List.map_cons, List.sum_cons] at *
    omega

theorem sumTurnS_eq {l : List Process} (h : ∀ r ∈ l, r.turnaround = r.burst + r.waiting) :
    sumTurnS l = sumWaiting l + sumBurst l := by
  induction l with
  | nil => rfl
  | cons a l ih =>
    have ha := h a (List.mem_cons_self _ _)
    have ihl := ih fun r hr => h r (List.mem_cons_of_mem _ hr)
    simp only [sumTurnS, sumWaiting, sumBurst, List.map_cons, List.sum_cons] at *
    omega

theorem orderedInsert_burst_remain {a : Process} {l : List Process}
    (ha : a.remain = a.burst) (hl : ∀ r ∈ l, r.remain = r.burst) :
    List.orderedInsert sjfLE a l = List.orderedInsert remainLE a l := by
  induction l with
  | nil => rfl
  | cons b l ih =>
    have hb := hl b (List.mem_cons_self _ _)
    have hl' := fun r hr => hl r (List.mem_cons_of_mem _ hr)
    simp only [List.orderedInsert]
    by_cases hab : a.burst ≤ b.burst
    · rw [if_pos ((sjfLE_iff a b).mpr hab), if_pos (show remainLE a b by unfold remainLE; omega)]
    · rw [if_neg (fun hc => hab ((sjfLE_iff a b).mp hc)),
        if_neg (show ¬remainLE a b by unfold remainLE; omega), ih hl']

theorem sortQ_burst_remain {l : List Process} (hl : ∀ r ∈ l, r.remain = r.burst) :
    sortQ sjfLE l = sortQ remainLE l := by
  induction l with
  | nil => rfl
  | cons a l ih =>
    have ha := hl a (List.mem_cons_self _ _)
    have hl' := fun r hr => hl r (List.mem_cons_of_mem _ hr)
    simp only [sortQ, List.insertionSort] at *
    rw [ih hl']
    exact orderedInsert_burst_remain ha
      (fun r hr => hl' r (by simpa using hr))

theorem FCFS_caller {p : List Process} {n fuel : Nat} {st : RunState}
    (hrun : FCFS p n fuel = .ok st) : st.caller = p :=
  stepsLoop_pres (P := fun s => s.caller = p)
    (fun _ _ hs hp => (stepFCFS_caller hs).trans hp) fuel n _ st hrun rfl

theorem SJF_caller {p : List Process} {n fuel : Nat} {st : RunState}
    (hrun : SJF p n fuel = .ok st) : st.caller = p :=
  stepsLoop_pres (P := fun s => s.caller = p)
    (fun _ _ hs hp => (stepSJF_caller hs).trans hp) fuel n _ st hrun rfl

theorem RR_caller {p : List Process} {n fuel : Nat} {t q : Int} {st : RunState}
    (hrun : RR p n t q fuel = .ok st) : st.caller = p :=
  stepsLoop_pres (P := fun s => s.caller = p)
    (fun _ _ hs hp => (stepRR_caller hs).trans hp) fuel n _ st hrun rfl

/-! Claim theorems -/

/-- C1: refuted as stated.  With input P0(arr 0, burst 3), P1(arr 1,
burst 1), t = 2 and quantum q = 1, after one loop iteration the running
process P0 has executedSinceDispatch = 1 = q and remainingTime = 2 > 0,
yet one further iteration leaves P0 still running (execute = 2) and not
requeued: the ready queue holds only P1.  RR.h line 103 compares the
execute counter against the parameter t, never against the quantum q,
and on the t-triggered branch the CPU slot is refilled at once rather
than set idle. -/
theorem c1_rr_ignores_quantum :
    (RR [mkProcess 0 0 3 0, mkProcess 1 1 1 0] 2 2 1 1).toOption.map
        (fun st => (st.temp.map fun r => (r.processID, r.execute, r.remain),
                    st.ready.length))
      = some (some (0, 1, 2), 0)
    ∧ (RR [mkProcess 0 0 3 0, mkProcess 1 1 1 0] 2 2 1 2).toOption.map
        (fun st => (st.temp.map fun r => (r.processID, r.execute, r.remain),
                    st.ready.map fun r => r.processID))
      = some (some (0, 2, 1), [1]) := by decide

/-- C2: refuted as stated.  On the valid input P0(arr 0, burst 2),
P1(arr 0, burst 9) the admission code (an if, not a while) moves only
the front pending record at tick 0: after one iteration P1 (arrival 0)
is still in the pending queue while the clock is already 1, so its
arrival time never again equals the current tick; the run subsequently
fails with EmptyQueue instead of terminating. -/
theorem c2_simultaneous_arrival_lost :
    ValidInput [mkProcess 0 0 2 0, mkProcess 1 0 9 0] 2
    ∧ (FCFS [mkProcess 0 0 2 0, mkProcess 1 0 9 0] 2 1).toOption.map
        (fun st => (st.time, st.pre.map fun r => (r.processID, r.arrival)))
      = some (1, [(1, 0)])
    ∧ FCFS [mkProcess 0 0 2 0, mkProcess 1 0 9 0] 2 20 = .error .emptyQueue := by decide

/-- C3 counterexample: on the valid single-process input P0(arr 0,
burst 2) the FCFS engine applies peekFront to the empty ready queue at
tick 1 (FCFS.h line 90 peeks the ready queue unconditionally while the
only process is running), so the run fails with EmptyQueue. -/
theorem c3_fcfs_empty_peek :
    ValidInput [mkProcess 0 0 2 0] 1
    ∧ FCFS [mkProcess 0 0 2 0] 1 2 = .error .emptyQueue := by decide

/-- C3 (amended): in the SJF engine every front-reading or
front-removing queue operation is guarded by is_empty_q (SJF.h lines
87, 95), so no SJF run ever fails: for every input and any number of
loop iterations the run returns a state, never the EmptyQueue error. -/
theorem c3_sjf_never_empty_access (p : List Process) (n fuel : Nat) :
    ∃ st, SJF p n fuel = .ok st :=
  stepsLoop_total stepSJF_total fuel n _

/-- C4: refuted as stated.  On the valid input P0(arr 0, burst 5),
P1(arr 0, burst 1) the tick-0 dispatch selects P0 (remaining 5 after
one tick of execution: remain 4) although P1, with arrival 0 ≤ 0 and
remaining time 1 < 5, had arrived and was neither dispatched nor
completed: P1 is still in the pending queue, because the single-record
admission step never admitted it. -/
theorem c4_sjf_not_greedy_over_arrived :
    ValidInput [mkProcess 0 0 5 0, mkProcess 1 0 1 0] 2
    ∧ (SJF [mkProcess 0 0 5 0, mkProcess 1 0 1 0] 2 1).toOption.map
        (fun st => (st.temp.map fun r => (r.processID, r.remain),
                    st.pre.map fun r => (r.processID, r.arrival, r.remain)))
      = some (some (0, 4), [(1, 0, 1)]) := by decide

/-- C4 (amended): at every SJF dispatch decision (CPU idle, ready queue
nonempty with an arrived front, after the admission phase of a
reachable state of a valid run), the process selected is the ready
queue front, and it has the minimum remainingTime among the records in
the ready queue; the ready queue is kept sorted by the stable
insertion sort with compare_for_SJF, so equal bursts retain admission
order. -/
theorem c4_sjf_greedy_in_ready {p : List Process} {n fuel : Nat} {st sta : RunState}
    {d : Process} {rest : List Process}
    (hvalid : ValidInput p n) (hrun : SJF p n fuel = .ok st)
    (ha : arriveSJFStep st = .ok sta)
    (hready : sta.ready = d :: rest) (harr : d.arrival ≤ sta.time)
    (hidle : sta.temp = none) :
    dispatchSJF sta =
      .ok { sta with
            ready := rest,
            temp := some { d with waiting := sta.time - d.arrival },
            total_waiting := sta.total_waiting + (sta.time - d.arrival) }
    ∧ ∀ x ∈ rest, d.remain ≤ x.remain := by
  have hIa : InvS sta := arriveSJFStep_invS ha (SJF_invS hvalid hrun)
  obtain ⟨-, h2, h3, -⟩ := hIa
  constructor
  · unfold dispatchSJF
    rw [hready]
    simp only [is_empty_q, List.isEmpty_cons, Bool.false_eq_true, if_false, peek, dequeue]
    rw [if_pos ⟨harr, hidle⟩]
  · intro x hx
    rw [hready] at h3
    have hdx := (List.sorted_cons.mp h3).1 x hx
    rw [sjfLE_iff] at hdx
    have hdr := h2 d (by rw [hready]; exact List.mem_cons_self _ _)
    have hxr := h2 x (by rw [hready]; exact List.mem_cons_of_mem _ hx)
    omega

/-- C4 witness: the amended dispatch theorem applied at the concrete
admitted state staW of the valid run on P0(arr 0, burst 2),
P1(arr 1, burst 1). -/
theorem c4_witness :
    dispatchSJF staW =
      .ok { staW with
            ready := ([] : List Process),
            temp := some { mkProcess 0 0 2 0 with
                           waiting := staW.time - (mkProcess 0 0 2 0).arrival },
            total_waiting := staW.total_waiting +
              (staW.time - (mkProcess 0 0 2 0).arrival) }
    ∧ ∀ x ∈ ([] : List Process), (mkProcess 0 0 2 0).remain ≤ x.remain :=
  @c4_sjf_greedy_in_ready [mkProcess 0 0 2 0, mkProcess 1 1 1 0] 2 0
    (initSJF [mkProcess 0 0 2 0, mkProcess 1 1 1 0] 2) staW (mkProcess 0 0 2 0) []
    (by decide) rfl (by decide) rfl (by decide) rfl

/-- C5: refuted as stated for RR.  On the valid input P0(arr 0,
burst 3), P1(arr 1, burst 1) with t = 2 (and q = 2) the RR run
completes (terminate = 2), but the sum over the finished records of
the reported turnaround (execute + waiting) is 5 while the sum of
waiting plus the sum of burst is 7: P0's execute counter was reset at
its second dispatch, so its pre-preemption execution is missing from
its recorded turnaround. -/
theorem c5_rr_conservation_fails :
    ValidInput [mkProcess 0 0 3 0, mkProcess 1 1 1 0] 2
    ∧ (RR [mkProcess 0 0 3 0, mkProcess 1 1 1 0] 2 2 2 10).toOption.map
        (fun st => (st.terminate, sumTurnFR st.result,
                    sumWaiting st.result + sumBurst st.result))
      = some (2, 5, 7)
    ∧ (5 : Int) ≠ 7 := by decide

/-- C5 (amended): for every valid input and every FCFS and SJF run
state (in particular a completed one), the sum of the finished
records' turnaround values equals the sum of their waiting values plus
the sum of their burst values, exactly: in FCFS the reported turnaround
is execute + waiting with execute = burst for every finished record,
and in SJF the stored turnaround field is burst + waiting.  The
identity fails for RR (see the counterexample). -/
theorem c5_conservation_fcfs_sjf {p : List Process} {n f1 f2 : Nat} {s1 s2 : RunState}
    (hvalid : ValidInput p n)
    (h1 : FCFS p n f1 = .ok s1) (h2 : SJF p n f2 = .ok s2) :
    sumTurnFR s1.result = sumWaiting s1.result + sumBurst s1.result
    ∧ sumTurnS s2.result = sumWaiting s2.result + sumBurst s2.result :=
  ⟨sumTurnFR_eq (FCFS_invF hvalid h1).2.2.2, sumTurnS_eq (SJF_invS hvalid h2).2.2.2⟩

/-- C5 witness: the conservation identity at the completed FCFS and
SJF runs on the one-process input pOne. -/
theorem c5_witness :
    sumTurnFR wFCFS.result = sumWaiting wFCFS.result + sumBurst wFCFS.result
    ∧ sumTurnS wSJF.result = sumWaiting wSJF.result + sumBurst wSJF.result :=
  @c5_conservation_fcfs_sjf pOne 1 2 2 wFCFS wSJF (by decide) (by decide) (by decide)

/-- C6: the claim's scenario evaluated on the code.  With P0(arr 0,
burst 5), P1(arr 1, burst 3), P2(arr 2, burst 8), after nine loop
iterations P0 and P1 have finished with waiting 0 and 4 and turnaround
5 and 7, and P2 is running with waiting 6 — exactly as the claim
predicts so far — but at tick 9 the unconditional peek of the (now
empty) ready queue fails with EmptyQueue under the spec's queue
semantics, so the run aborts before P2 can finish and no averages are
produced. -/
theorem c6_fcfs_scenario_aborts :
    ValidInput [mkProcess 0 0 5 0, mkProcess 1 1 3 0, mkProcess 2 2 8 0] 3
    ∧ (FCFS [mkProcess 0 0 5 0, mkProcess 1 1 3 0, mkProcess 2 2 8 0] 3 9).toOption.map
        (fun st => (st.time,
                    st.result.map fun r => (r.processID, r.waiting, r.execute + r.waiting),
                    st.temp.map fun r => (r.processID, r.waiting)))
      = some (9, [(0, 0, 5), (1, 4, 7)], some (2, 6))
    ∧ FCFS [mkProcess 0 0 5 0, mkProcess 1 1 3 0, mkProcess 2 2 8 0] 3 10
      = .error .emptyQueue := by decide

/-- C7: refuted as stated.  On the valid input P0(arr 0, burst 2),
P1(arr 1, burst 3), P2(arr 2, burst 2), P3(arr 3, burst 2) with t = 2
the RR run completes; P1 is dispatched twice with recorded waits 2 and
4 (the ghost dispatch log), but its final waiting field is 4, not
2 + 4 = 6: each dispatch assigns the waiting field instead of adding
to it. -/
theorem c7_rr_waiting_not_accumulated :
    (RR [mkProcess 0 0 2 0, mkProcess 1 1 3 0, mkProcess 2 2 2 0, mkProcess 3 3 2 0]
        4 2 2 20).toOption.map
        (fun st => ((st.dispatchLog.filter fun e => e.1 == 1).map Prod.snd,
                    (st.result.filter fun r => r.processID == 1).map Process.waiting))
      = some ([2, 4], [4])
    ∧ (4 : Int) ≠ 2 + 4 := by decide

/-- C7 (amended): at every RR dispatch (ready front d arrived, CPU
idle) the engine assigns d's waiting field the value currentTick minus
d's timeout (its last ready-entry tick), discarding d's previous
waiting value, while the increment is added to the engine's
total_waiting accumulator (and recorded in the ghost dispatch log): the
aggregate accounting is incremental, but a multiply-dispatched
process's own waiting field ends with only its final sojourn's wait. -/
theorem c7_rr_dispatch_assigns_waiting {st : RunState} {d : Process} {rest : List Process}
    (hready : st.ready = d :: rest) (harr : d.arrival ≤ st.time)
    (hidle : st.temp = none) :
    dispatchRR st =
      .ok { st with
            ready := rest,
            temp := some { d with waiting := st.time - d.timeout, execute := 0 },
            total_waiting := st.total_waiting + (st.time - d.timeout),
            dispatchLog := st.dispatchLog ++ [(d.processID, st.time - d.timeout)] } := by
  unfold dispatchRR
  rw [hready]
  simp only [peek, dequeue]
  rw [if_pos ⟨harr, hidle⟩]

/-- C7 witness: the dispatch-assignment theorem applied at the concrete
state stW, whose ready front carries waiting 9 from an earlier sojourn;
the dispatch overwrites it with 10 - 3 = 7. -/
theorem c7_witness :
    dispatchRR stW =
      .ok { stW with
            ready := ([] : List Process),
            temp := some { { mkProcess 7 0 5 0 with waiting := 9, timeout := 3 } with
                           waiting := stW.time - (3 : Int), execute := 0 },
            total_waiting := stW.total_waiting + (stW.time - (3 : Int)),
            dispatchLog := stW.dispatchLog ++ [((7 : Int), stW.time - (3 : Int))] } :=
  c7_rr_dispatch_assigns_waiting rfl (by decide) rfl

/-- C8: refuted as stated.  RR invoked with quantum q = 0 on the valid
input pOne (with t = 5) does not fail before the loop: the simulation
runs to completion, collecting its one process. -/
theorem c8_rr_zero_quantum_runs :
    (RR pOne 1 5 0 2).toOption.map (fun st => (st.terminate, st.result.length))
      = some (1, 1) := by decide

/-- C8 (amended): the RR engine performs no quantum validation and
never reads its quantum parameter q at all: for every input, process
count, t and fuel, the run result is identical for any two quantum
values. -/
theorem c8_rr_quantum_unread (p : List Process) (n : Nat) (t q q' : Int) (fuel : Nat) :
    RR p n t q fuel = RR p n t q' fuel := rfl

/-- C9: each engine copies the caller's records by value into its
internal pending queue and mutates only internal state: the caller's
array, threaded through every step of each run, is returned unchanged
by all three engines. -/
theorem c9_caller_array_unchanged {p : List Process} {n : Nat} {t q : Int}
    {f1 f2 f3 : Nat} {s1 s2 s3 : RunState}
    (h1 : FCFS p n f1 = .ok s1) (h2 : SJF p n f2 = .ok s2)
    (h3 : RR p n t q f3 = .ok s3) :
    s1.caller = p ∧ s2.caller = p ∧ s3.caller = p :=
  ⟨FCFS_caller h1, SJF_caller h2, RR_caller h3⟩

/-- C9 witness: the caller-array preservation at the completed runs of
all three engines on the one-process input pOne. -/
theorem c9_witness :
    wFCFS.caller = pOne ∧ wSJF.caller = pOne ∧ wRR.caller = pOne :=
  @c9_caller_array_unchanged pOne 1 5 0 2 2 2 wFCFS wSJF wRR
    (by decide) (by decide) (by decide)

/-- C10: in every reachable state of a valid FCFS or SJF run, every
record in the ready queue satisfies remain = burst (a record only
executes after it has permanently left the ready queue), and on any
list of records with remain = burst the compare_for_SJF ordering (by
burst) produces exactly the same sorted queue as ordering by remaining
time. -/
theorem c10_ready_remain_eq_burst {p : List Process} {n f1 f2 : Nat} {s1 s2 : RunState}
    (hvalid : ValidInput p n)
    (h1 : FCFS p n f1 = .ok s1) (h2 : SJF p n f2 = .ok s2) :
    (∀ r ∈ s1.ready, r.remain = r.burst)
    ∧ (∀ r ∈ s2.ready, r.remain = r.burst)
    ∧ ∀ l : List Process, (∀ r ∈ l, r.remain = r.burst) →
        sortQ sjfLE l = sortQ remainLE l :=
  ⟨(FCFS_invF hvalid h1).2.1, (SJF_invS hvalid h2).2.1,
    fun _ hl => sortQ_burst_remain hl⟩

/-- C10 witness: the invariant and the comparator agreement at the
completed FCFS and SJF runs on the one-process input pOne. -/
theorem c10_witness :
    (∀ r ∈ wFCFS.ready, r.remain = r.burst)
    ∧ (∀ r ∈ wSJF.ready, r.remain = r.burst)
    ∧ ∀ l : List Process, (∀ r ∈ l, r.remain = r.burst) →
        sortQ sjfLE l = sortQ remainLE l :=
  @c10_ready_remain_eq_burst pOne 1 2 2 wFCFS wSJF (by decide) (by decide) (by decide)

end CpuScheduler
